import Mathlib

/-!
Verification development for the meleellm transcript pipeline.

The Python sources are shallowly embedded: timestamps (Python floats holding
second counts) are modelled as exact rationals, Python str.split() /
str.strip() are modelled over the character list backing a string, the
external collaborators (transcript fetch, vector store, pickle, the thread
pool) are modelled at their documented interfaces, and the control flow of
the repository code is translated statement by statement.
-/

namespace MeleeLLM

/-- Caption entry as returned by the transcript fetcher: a text fragment
with a start time and a duration, both in seconds. -/
structure CaptionEntry where
  text : String
  start : ℚ
  duration : ℚ
deriving DecidableEq, Repr

/-- Chunk record built by process_single_video in src/parse.py. -/
structure Chunk where
  text : String
  start_time : ℚ
  end_time : ℚ
  video_title : String
  video_url : String
  video_id : String
deriving DecidableEq, Repr

/-- Helper for Python str.split(): walk the character list, accumulating the
current word reversed; whitespace flushes the accumulator.  Produces the
whitespace-delimited words with empty strings dropped, exactly as the
argument-free Python split does. -/
def wordsAux : List Char → List Char → List (List Char)
  | [], acc => if acc = [] then [] else [acc.reverse]
  | c :: cs, acc =>
    if c.isWhitespace then
      if acc = [] then wordsAux cs [] else acc.reverse :: wordsAux cs []
    else
      wordsAux cs (c :: acc)

/-- Python str.split() with no argument: split on runs of whitespace,
dropping empty fragments. -/
def pySplit (s : String) : List String :=
  (wordsAux s.data []).map String.mk

/-- Python str.strip(): drop leading and trailing whitespace. -/
def pyStrip (s : String) : String :=
  String.mk (((s.data.dropWhile Char.isWhitespace).reverse.dropWhile Char.isWhitespace).reverse)

/-- Python slice l[-k:] for a nonnegative k.  For k = 0 the slice is the
whole list (the Python -0 gotcha); otherwise it is the last k elements,
the whole list when k exceeds the length. -/
def pyLastSlice (l : List α) (k : ℕ) : List α :=
  if k = 0 then l else l.drop (l.length - k)

/-- Written from the words of the spec, for comparison with pyLastSlice:
the last k entries of the list, which is empty when k = 0. -/
def specLastN (l : List α) (k : ℕ) : List α :=
  l.drop (l.length - k)

/-- Python truthiness test on the chunk_start variable of
process_single_video: None and 0.0 both count as falsy. -/
def pyFalsy : Option ℚ → Bool
  | none => true
  | some q => q == 0

/-- Loop state of the chunking loop in process_single_video
(src/parse.py lines 76 to 103). -/
structure ChunkState where
  chunks : List Chunk
  current_chunk : List CaptionEntry
  current_text : String
  chunk_start : Option ℚ
deriving DecidableEq, Repr

/-- One iteration of the chunking loop of process_single_video over a
transcript entry (src/parse.py lines 81 to 103), including the Python
truthiness test on chunk_start and the [-overlap:] reseed slice. -/
def step (chunk_size overlap : ℕ) (video_title video_url video_id : String)
    (st : ChunkState) (entry : CaptionEntry) : ChunkState :=
  let chunk_start : ℚ :=
    if pyFalsy st.chunk_start then entry.start else st.chunk_start.getD 0
  let current_text := st.current_text ++ " " ++ entry.text
  let current_chunk := st.current_chunk ++ [entry]
  if chunk_size ≤ (pySplit current_text).length then
    let emitted : Chunk :=
      ⟨pyStrip current_text, chunk_start, entry.start + entry.duration,
        video_title, video_url, video_id⟩
    let overlap_entries := pyLastSlice current_chunk overlap
    { chunks := st.chunks ++ [emitted]
      current_chunk := overlap_entries
      current_text := String.intercalate " " (overlap_entries.map (·.text))
      chunk_start := some ((overlap_entries.headD entry).start) }
  else
    { chunks := st.chunks
      current_chunk := current_chunk
      current_text := current_text
      chunk_start := some chunk_start }

/-- The chunking portion of process_single_video (src/parse.py lines 76 to
114): fold the loop over the transcript, then emit the final chunk when the
accumulator is nonempty. -/
def chunkTranscript (transcript : List CaptionEntry) (chunk_size overlap : ℕ)
    (video_title video_url video_id : String) : List Chunk :=
  let st := transcript.foldl (step chunk_size overlap video_title video_url video_id)
    ⟨[], [], "", none⟩
  if st.current_chunk = [] then st.chunks
  else
    st.chunks ++
      [⟨pyStrip st.current_text, st.chunk_start.getD 0,
        (st.current_chunk.getLastD ⟨"", 0, 0⟩).start +
          (st.current_chunk.getLastD ⟨"", 0, 0⟩).duration,
        video_title, video_url, video_id⟩]

/-- Python floor division a // b on floats, modelled on exact rationals. -/
def pyFloorDiv (a b : ℚ) : ℚ := (⌊a / b⌋ : ℚ)

/-- Python a % b on floats: a - b * floor(a / b), modelled exactly. -/
def pyMod (a b : ℚ) : ℚ := a - b * ⌊a / b⌋

/-- Python int() applied to a float: truncation toward zero. -/
def pyInt (q : ℚ) : ℤ := if q < 0 then ⌈q⌉ else ⌊q⌋

/-- Python format spec 02d: pad a rendered integer with a leading zero up
to width two. -/
def pad2 (n : ℤ) : String :=
  if 0 ≤ n ∧ n < 10 then "0" ++ toString n else toString n

/-- format_timestamp from src/parse.py lines 36 to 41 (the identical copies
in src/vectordb.py and src/build_db.py are the same function): render a
second count as zero padded HH:MM:SS. -/
def format_timestamp (seconds : ℚ) : String :=
  let hours := pyInt (pyFloorDiv seconds 3600)
  let minutes := pyInt (pyFloorDiv (pyMod seconds 3600) 60)
  let secs := pyInt (pyMod seconds 60)
  pad2 hours ++ ":" ++ pad2 minutes ++ ":" ++ pad2 secs

/-- Fuel-driven helper for pyBatches; the fuel starts at the list length,
which suffices for any positive batch size. -/
def pyBatchesAux (B : ℕ) : ℕ → List α → List (List α)
  | _, [] => []
  | 0, _ :: _ => []
  | fuel + 1, x :: xs => ((x :: xs).take B) :: pyBatchesAux B fuel ((x :: xs).drop B)

/-- The batching loop for i in range(0, len(l), B) with slice l[i : i + B],
as written in create_or_load_collection (src/vectordb.py lines 67 to 76)
and build_database (src/build_db.py lines 39 to 69). -/
def pyBatches (l : List α) (B : ℕ) : List (List α) :=
  pyBatchesAux B l.length l

/-- Document record assembled for the vector store: the chunk text plus the
metadata dict built in src/vectordb.py lines 51 to 65, plus the generated
id. -/
structure VDoc where
  document : String
  video_title : String
  video_url : String
  video_id : String
  start_time : ℚ
  end_time : ℚ
  timestamp : String
  id : String
deriving DecidableEq, Repr

/-- Build a VDoc from a chunk and a freshly generated identifier, per the
loop of src/vectordb.py lines 51 to 65. -/
def mkVDoc (idStr : String) (c : Chunk) : VDoc :=
  ⟨c.text, c.video_title, c.video_url, c.video_id, c.start_time, c.end_time,
    format_timestamp c.start_time ++ " - " ++ format_timestamp c.end_time, idStr⟩

/-- All documents for a chunk list, the identifier of document i drawn from
an id supply modelling uuid.uuid4(). -/
def mkVDocs (ids : ℕ → String) (chunks : List Chunk) : List VDoc :=
  chunks.enum.map fun p => mkVDoc (ids p.1) p.2

/-- State of the external vector store: named collections each holding a
document list; count() is the length of that list. -/
abbrev VStore := List (String × List VDoc)

/-- get_collection: first collection with the name, none models the
InvalidCollectionException (NotFound) signal. -/
def lookupColl (s : VStore) (n : String) : Option (List VDoc) :=
  (List.find? (fun p => p.1 = n) s).map (·.2)

/-- delete_collection. -/
def deleteColl (s : VStore) (n : String) : VStore :=
  List.filter (fun p => ¬ p.1 = n) s

/-- create_collection: a fresh empty collection. -/
def createColl (s : VStore) (n : String) : VStore :=
  s ++ [(n, [])]

/-- collection.add on one batch of documents. -/
def addToColl (s : VStore) (n : String) (ds : List VDoc) : VStore :=
  s.map fun p => if p.1 = n then (p.1, p.2 ++ ds) else p

/-- Observable calls issued against the vector store. -/
inductive VOp where
  | create (name : String)
  | delete (name : String)
  | add (size : ℕ)
deriving DecidableEq, Repr

/-- The ingestion tail of create_or_load_collection (src/vectordb.py lines
43 to 78): create the collection, build the document records, add them in
batches of 500. -/
def ingestChunks (ids : ℕ → String) (chunks : List Chunk) (collection_name : String)
    (store : VStore) : VStore × List VOp :=
  let store1 := createColl store collection_name
  let batches := pyBatches (mkVDocs ids chunks) 500
  (batches.foldl (fun s b => addToColl s collection_name b) store1,
    VOp.create collection_name :: batches.map fun b => VOp.add b.length)

/-- create_or_load_collection from src/vectordb.py lines 19 to 78: reuse
the existing collection when its count matches the chunk count, delete and
rebuild it on a count mismatch, and create it when get_collection signals
NotFound.  Returns the resulting store state and the trace of mutating
store calls. -/
def create_or_load_collection (ids : ℕ → String) (chunks : List Chunk)
    (collection_name : String) (store : VStore) : VStore × List VOp :=
  match lookupColl store collection_name with
  | some docs =>
    if docs.length = chunks.length then (store, [])
    else
      let store1 := deleteColl store collection_name
      let r := ingestChunks ids chunks collection_name store1
      (r.1, VOp.delete collection_name :: r.2)
  | none => ingestChunks ids chunks collection_name store

/-- build_database from src/build_db.py lines 15 to 72: wipe the store,
create the collection, and add the chunk documents in batches of 1000. -/
def build_database (ids : ℕ → String) (chunks : List Chunk) : VStore × List VOp :=
  let store := createColl [] "video_transcripts"
  let batches := pyBatches (mkVDocs ids chunks) 1000
  (batches.foldl (fun s b => addToColl s "video_transcripts" b) store,
    VOp.create "video_transcripts" :: batches.map fun b => VOp.add b.length)

/-- Video metadata record of src/parse.py lines 14 to 20.  The wall clock
processed_date field added at line 123 is presentation metadata outside
this model. -/
structure VideoMetadata where
  title : String
  url : String
  video_id : String
  duration : ℤ
  upload_date : String
deriving DecidableEq, Repr

/-- Resolved value of one video: the metadata plus the chunk list,
src/parse.py lines 116 to 126. -/
structure VideoResult where
  metadata : VideoMetadata
  chunks : List Chunk
deriving DecidableEq, Repr

/-- get_video_metadata from src/parse.py lines 43 to 63: the external
yt_dlp fetch, modelled as an oracle that either yields a metadata record or
raises; the surrounding try and except turns a raise into None. -/
def get_video_metadata (fetchInfo : String → Except String VideoMetadata)
    (url : String) : Option VideoMetadata :=
  (fetchInfo url).toOption

/-- process_single_video from src/parse.py lines 65 to 130: fetch metadata
(None aborts with None), fetch the transcript (a raise is caught by the
outer try and except and yields None), then chunk.  The transcript fetch is
an oracle from video id to entries or a raised error. -/
def process_single_video (fetchInfo : String → Except String VideoMetadata)
    (fetchTranscript : String → Except String (List CaptionEntry))
    (url : String) (chunk_size : ℕ := 300) (overlap : ℕ := 100) :
    Option VideoResult :=
  match get_video_metadata fetchInfo url with
  | none => none
  | some metadata =>
    match fetchTranscript metadata.video_id with
    | .error _ => none
    | .ok transcript =>
      some ⟨metadata,
        chunkTranscript transcript chunk_size overlap
          metadata.title url metadata.video_id⟩

/-- process_videos from src/parse.py lines 132 to 152: one independent task
per URL over a bounded thread pool.  Tasks share no mutable state and
asyncio.gather returns the completed results positionally in the order of
the submitted tasks, so the gather barrier is modelled as a map over the
URL list; the comprehension on line 150 then drops the None results. -/
def process_videos (fetchInfo : String → Except String VideoMetadata)
    (fetchTranscript : String → Except String (List CaptionEntry))
    (urls : List String) : List VideoResult :=
  let completed_results := urls.map (process_single_video fetchInfo fetchTranscript)
  completed_results.filterMap id

/-- Modelled from the spec: the serialized form written by the external
pickle library, which the spec requires to round trip exactly.  A chunk is
laid out as its six fields in order; the file is the concatenation of the
chunk records. -/
inductive PickleTok where
  | str (s : String)
  | rat (q : ℚ)
deriving DecidableEq, Repr

/-- Modelled from the spec: pickle serialization of one chunk record. -/
def encodeChunk (c : Chunk) : List PickleTok :=
  [.str c.text, .rat c.start_time, .rat c.end_time,
    .str c.video_title, .str c.video_url, .str c.video_id]

/-- Modelled from the spec: pickle.dump of a chunk list. -/
def pickleDump (chunks : List Chunk) : List PickleTok :=
  (chunks.map encodeChunk).flatten

/-- Modelled from the spec: pickle.load, inverting pickleDump; a malformed
blob yields none. -/
def pickleLoad : List PickleTok → Option (List Chunk)
  | [] => some []
  | .str t :: .rat s :: .rat e :: .str vt :: .str vu :: .str vi :: rest =>
    (pickleLoad rest).map (⟨t, s, e, vt, vu, vi⟩ :: ·)
  | _ => none

/-- save_processed_videos from src/parse.py lines 173 to 182: flatten the
chunk lists of the non-None results in order and pickle the flat list.  The
argument list may hold None entries, matching the guard on line 178. -/
def save_processed_videos (results : List (Option VideoResult)) : List PickleTok :=
  let all_chunks := results.foldl
    (fun all r => match r with
      | some v => all ++ v.chunks
      | none => all) []
  pickleDump all_chunks

/-- load_processed_videos from src/vectordb.py lines 14 to 17: unpickle the
chunk list. -/
def load_processed_videos (blob : List PickleTok) : Option (List Chunk) :=
  pickleLoad blob

/-- Words of a run of caption entries, in order. -/
def entryWords (l : List CaptionEntry) : List String :=
  (l.map fun e => pySplit e.text).flatten

/-- Words of a run of chunks, in order. -/
def chunkWords (l : List Chunk) : List String :=
  (l.map fun c => pySplit c.text).flatten

/-- Invariant carried through the chunking loop: B bounds every processed
start time seen so far. -/
def InvC4 (B : ℚ) (st : ChunkState) : Prop :=
  (∀ x ∈ st.current_chunk, x.start ≤ B ∧ 0 ≤ x.duration) ∧
  (∀ v, st.chunk_start = some v → v ≤ B) ∧
  (st.current_chunk ≠ [] → ∃ v, st.chunk_start = some v) ∧
  (st.current_chunk ≠ [] → B ≤ (st.current_chunk.getLastD ⟨"", 0, 0⟩).start) ∧
  (∀ c ∈ st.chunks, c.start_time ≤ c.end_time)

/-- Demonstration metadata oracle for the batch processor: every URL
resolves to a metadata record whose video id is derived from the URL. -/
def demoMeta (u : String) : Except String VideoMetadata :=
  .ok ⟨"T", u, "id-" ++ u, 0, "d"⟩

/-- Demonstration transcript oracle: the video id derived from the second
URL raises, every other video yields a one entry transcript. -/
def demoTranscript (vid : String) : Except String (List CaptionEntry) :=
  if vid = "id-u2" then .error "no transcript" else .ok [⟨"hello world", 0, 1⟩]

/-! Helper lemmas about the word splitter. -/

theorem wordsAux_append_ws (c : Char) (hc : c.isWhitespace) :
    ∀ (a acc b : List Char),
      wordsAux (a ++ c :: b) acc = wordsAux a acc ++ wordsAux b []
  | [], acc, b => by
    by_cases h : acc = [] <;> simp [wordsAux, hc, h]
  | x :: a', acc, b => by
    by_cases hx : x.isWhitespace
    · by_cases h : acc = [] <;>
        simp [wordsAux, hx, h, wordsAux_append_ws c hc a' [] b]
    · simp [wordsAux, hx, wordsAux_append_ws c hc a' (x :: acc) b]

theorem wordsAux_allws (r : List Char) (hr : ∀ c ∈ r, c.isWhitespace) :
    ∀ acc, wordsAux r acc = if acc = [] then [] else [acc.reverse] := by
  induction r with
  | nil => intro acc; rfl
  | cons c r' ih =>
    intro acc
    have hc : c.isWhitespace := hr c (by simp)
    have ih' := ih (fun d hd => hr d (by simp [hd]))
    by_cases h : acc = [] <;> simp [wordsAux, hc, h, ih' ([] : List Char)]

theorem wordsAux_append_allws (r : List Char) (hr : ∀ c ∈ r, c.isWhitespace) :
    ∀ (l : List Char) (acc : List Char), wordsAux (l ++ r) acc = wordsAux l acc
  | [], acc => by
    simpa [wordsAux] using wordsAux_allws r hr acc
  | x :: l', acc => by
    by_cases hx : x.isWhitespace
    · by_cases h : acc = [] <;>
        simp [wordsAux, hx, h, wordsAux_append_allws r hr l' []]
    · simp [wordsAux, hx, wordsAux_append_allws r hr l' (x :: acc)]

theorem wordsAux_dropWhile (l : List Char) :
    wordsAux (l.dropWhile Char.isWhitespace) [] = wordsAux l [] := by
  induction l with
  | nil => rfl
  | cons c l' ih =>
    by_cases hc : c.isWhitespace <;> simp [List.dropWhile, wordsAux, hc, ih]

theorem pySplit_append_space (s t : String) :
    pySplit (s ++ " " ++ t) = pySplit s ++ pySplit t := by
  have hdata : (s ++ " " ++ t).data = s.data ++ ' ' :: t.data := by
    simp [String.data_append]
  simp [pySplit, hdata, wordsAux_append_ws ' ' (by decide) s.data [] t.data]

theorem pySplit_pyStrip (s : String) : pySplit (pyStrip s) = pySplit s := by
  unfold pySplit pyStrip
  set m := s.data.dropWhile Char.isWhitespace with hm
  have hdecomp : m = (m.reverse.dropWhile Char.isWhitespace).reverse ++
      (m.reverse.takeWhile Char.isWhitespace).reverse := by
    conv_lhs => rw [← List.reverse_reverse m,
      ← List.takeWhile_append_dropWhile (p := Char.isWhitespace) (l := m.reverse)]
    rw [List.reverse_append]
  have hws : ∀ c ∈ (m.reverse.takeWhile Char.isWhitespace).reverse, c.isWhitespace := by
    intro c hc
    rw [List.mem_reverse] at hc
    exact List.mem_takeWhile_imp hc
  have h1 : wordsAux ((m.reverse.dropWhile Char.isWhitespace).reverse) [] =
      wordsAux m [] := by
    conv_rhs => rw [hdecomp]
    rw [wordsAux_append_allws _ hws]
  rw [h1, hm, wordsAux_dropWhile]

theorem entryWords_append (p q : List CaptionEntry) :
    entryWords (p ++ q) = entryWords p ++ entryWords q := by
  simp [entryWords]

theorem chunkWords_append (p q : List Chunk) :
    chunkWords (p ++ q) = chunkWords p ++ chunkWords q := by
  simp [chunkWords]

theorem chunkWords_snoc (A : List Chunk) (c : Chunk) :
    chunkWords (A ++ [c]) = chunkWords A ++ pySplit c.text := by
  simp [chunkWords]

theorem sublist_append_extend (X A B R : List String)
    (h : List.Sublist X (A ++ B)) : List.Sublist X (A ++ (B ++ R)) := by
  rw [← List.append_assoc]
  exact h.trans (List.sublist_append_left _ _)

theorem words_extend_emit (X CW R : List String) (t' : String)
    (h : List.Sublist X (CW ++ pySplit t')) (c : Chunk)
    (hc : c.text = pyStrip t') (A : List Chunk) (hA : chunkWords A = CW) :
    List.Sublist X (chunkWords (A ++ [c]) ++ R) := by
  rw [chunkWords_snoc, hc, pySplit_pyStrip, hA, List.append_assoc]
  exact sublist_append_extend _ _ _ _ h

theorem step_words (chunk_size overlap : ℕ) (vt vu vi : String)
    (st : ChunkState) (e : CaptionEntry) (p : List CaptionEntry)
    (h : List.Sublist (entryWords p) (chunkWords st.chunks ++ pySplit st.current_text)) :
    List.Sublist (entryWords (p ++ [e]))
      (chunkWords (step chunk_size overlap vt vu vi st e).chunks ++
        pySplit (step chunk_size overlap vt vu vi st e).current_text) := by
  have h2 : List.Sublist (entryWords p ++ pySplit e.text)
      (chunkWords st.chunks ++ pySplit (st.current_text ++ " " ++ e.text)) := by
    rw [pySplit_append_space, ← List.append_assoc]
    exact h.append (List.Sublist.refl _)
  have hw : entryWords (p ++ [e]) = entryWords p ++ pySplit e.text := by
    simp [entryWords]
  rw [hw]
  by_cases hemit :
      chunk_size ≤ (pySplit (st.current_text ++ " " ++ e.text)).length
  · simp only [step, if_pos hemit]
    exact words_extend_emit _ _ _ _ h2 _ rfl _ rfl
  · simpa only [step, if_neg hemit] using h2

theorem foldl_words (chunk_size overlap : ℕ) (vt vu vi : String) :
    ∀ (es : List CaptionEntry) (st : ChunkState) (p : List CaptionEntry),
      List.Sublist (entryWords p) (chunkWords st.chunks ++ pySplit st.current_text) →
      List.Sublist (entryWords (p ++ es))
        (chunkWords ((es.foldl (step chunk_size overlap vt vu vi) st).chunks) ++
          pySplit ((es.foldl (step chunk_size overlap vt vu vi) st).current_text))
  | [], st, p, h => by simpa using h
  | e :: es', st, p, h => by
    have h1 := step_words chunk_size overlap vt vu vi st e p h
    have h2 := foldl_words chunk_size overlap vt vu vi es'
      (step chunk_size overlap vt vu vi st e) (p ++ [e]) h1
    simpa [List.append_assoc] using h2

theorem step_current_chunk_ne (chunk_size overlap : ℕ) (vt vu vi : String)
    (st : ChunkState) (e : CaptionEntry) :
    (step chunk_size overlap vt vu vi st e).current_chunk ≠ [] := by
  by_cases hemit :
      chunk_size ≤ (pySplit (st.current_text ++ " " ++ e.text)).length
  · simp only [step, if_pos hemit, pyLastSlice]
    by_cases hov : overlap = 0
    · simp [hov]
    · simp only [if_neg hov, ne_eq, List.drop_eq_nil_iff]
      simp only [List.length_append, List.length_singleton]
      omega
  · simp [step, if_neg hemit]

theorem foldl_current_chunk_ne (chunk_size overlap : ℕ) (vt vu vi : String) :
    ∀ (es : List CaptionEntry) (st : ChunkState),
      (st.current_chunk ≠ [] ∨ es ≠ []) →
      ((es.foldl (step chunk_size overlap vt vu vi) st).current_chunk ≠ [])
  | [], st, h => by
    simpa using h.resolve_right (by simp)
  | e :: es', st, _ => by
    exact foldl_current_chunk_ne chunk_size overlap vt vu vi es'
      (step chunk_size overlap vt vu vi st e)
      (Or.inl (step_current_chunk_ne chunk_size overlap vt vu vi st e))

/-! Helper lemmas for the timestamp invariant of the chunker. -/

theorem headD_mem {l : List α} (d : α) (h : l ≠ []) : l.headD d ∈ l := by
  cases l with
  | nil => exact absurd rfl h
  | cons x xs => simp [List.headD]

theorem getLastD_mem {l : List α} (d : α) (h : l ≠ []) : l.getLastD d ∈ l := by
  rw [List.getLastD_eq_getLast?, List.getLast?_eq_getLast l h]
  simp [List.getLast_mem h]

theorem getLastD_concat (l : List α) (e d : α) : (l ++ [e]).getLastD d = e := by
  rw [List.getLastD_eq_getLast?, List.getLast?_concat]
  rfl

theorem pyLastSlice_subset (l : List α) (k : ℕ) : pyLastSlice l k ⊆ l := by
  unfold pyLastSlice
  by_cases h : k = 0
  · simp [h]
  · simp [h, List.drop_subset]

theorem pyLastSlice_getLastD_concat (l : List α) (e d : α) (k : ℕ) :
    (pyLastSlice (l ++ [e]) k).getLastD d = e := by
  unfold pyLastSlice
  by_cases h : k = 0
  · simp [h, getLastD_concat]
  · rw [if_neg h]
    have hlen : (l ++ [e]).length - k ≤ l.length := by
      simp only [List.length_append, List.length_singleton]
      omega
    rw [List.drop_append_of_le_length hlen, getLastD_concat]

theorem step_inv (chunk_size overlap : ℕ) (vt vu vi : String)
    (st : ChunkState) (e : CaptionEntry) (B : ℚ)
    (hInv : InvC4 B st) (hBe : B ≤ e.start) (hd : 0 ≤ e.duration) :
    InvC4 e.start (step chunk_size overlap vt vu vi st e) := by
  obtain ⟨hcur, hcs, _, _, hchunks⟩ := hInv
  have hcsle : (if pyFalsy st.chunk_start then e.start else st.chunk_start.getD 0) ≤ e.start := by
    cases hst : st.chunk_start with
    | none => simp [pyFalsy]
    | some q =>
      by_cases hq : q = 0
      · simp [pyFalsy, hq]
      · have hfal : pyFalsy (some q) = false := by simp [pyFalsy, hq]
        rw [hfal]
        simpa using le_trans (hcs q hst) hBe
  have hmem : ∀ x ∈ st.current_chunk ++ [e], x.start ≤ e.start ∧ 0 ≤ x.duration := by
    intro x hx
    rcases List.mem_append.mp hx with hx | hx
    · exact ⟨le_trans (hcur x hx).1 hBe, (hcur x hx).2⟩
    · simp only [List.mem_singleton] at hx
      subst hx
      exact ⟨le_refl _, hd⟩
  by_cases hemit :
      chunk_size ≤ (pySplit (st.current_text ++ " " ++ e.text)).length
  · simp only [step, if_pos hemit]
    refine ⟨?_, ?_, ?_, ?_, ?_⟩
    · intro x hx
      exact hmem x (pyLastSlice_subset _ _ hx)
    · intro v hv
      simp only [Option.some.injEq] at hv
      subst hv
      by_cases hov : pyLastSlice (st.current_chunk ++ [e]) overlap = []
      · rw [hov]
        simp
      · exact (hmem _ (pyLastSlice_subset _ _ (headD_mem e hov))).1
    · intro _
      exact ⟨_, rfl⟩
    · intro _
      rw [pyLastSlice_getLastD_concat]
    · intro c hc
      rcases List.mem_append.mp hc with hc | hc
      · exact hchunks c hc
      · simp only [List.mem_singleton] at hc
        subst hc
        simpa using le_trans hcsle (by linarith)
  · simp only [step, if_neg hemit]
    refine ⟨hmem, ?_, ?_, ?_, hchunks⟩
    · intro v hv
      simp only [Option.some.injEq] at hv
      subst hv
      exact hcsle
    · intro _
      exact ⟨_, rfl⟩
    · intro _
      rw [getLastD_concat]

theorem foldl_inv (chunk_size overlap : ℕ) (vt vu vi : String) :
    ∀ (es : List CaptionEntry) (st : ChunkState) (B : ℚ),
      InvC4 B st →
      List.Pairwise (fun a b => a.start ≤ b.start) es →
      (∀ x ∈ es, B ≤ x.start ∧ 0 ≤ x.duration) →
      ∃ B2, InvC4 B2 (es.foldl (step chunk_size overlap vt vu vi) st)
  | [], st, B, hInv, _, _ => ⟨B, hInv⟩
  | e :: es', st, B, hInv, hpw, hx => by
    have he := hx e (by simp)
    have hInv' := step_inv chunk_size overlap vt vu vi st e B hInv he.1 he.2
    refine foldl_inv chunk_size overlap vt vu vi es'
      (step chunk_size overlap vt vu vi st e) e.start hInv'
      (List.Pairwise.of_cons hpw) ?_
    intro x hxm
    exact ⟨(List.pairwise_cons.mp hpw).1 x hxm, (hx x (by simp [hxm])).2⟩

/-! Helper lemmas about the batching loop. -/

theorem pyBatchesAux_congr {B : ℕ} (hB : 0 < B) :
    ∀ (n m : ℕ) (l : List α), l.length ≤ n → l.length ≤ m →
      pyBatchesAux B n l = pyBatchesAux B m l
  | n, m, [], _, _ => by cases n <;> cases m <;> rfl
  | n + 1, m + 1, x :: xs, hn, hm => by
    simp only [pyBatchesAux]
    refine congrArg _ (pyBatchesAux_congr hB n m ((x :: xs).drop B) ?_ ?_) <;>
      · simp only [List.length_drop, List.length_cons]
        simp only [List.length_cons] at hn hm
        omega

theorem pyBatches_cons {B : ℕ} (hB : 0 < B) (x : α) (xs : List α) :
    pyBatches (x :: xs) B = (x :: xs).take B :: pyBatches ((x :: xs).drop B) B := by
  simp only [pyBatches, List.length_cons, pyBatchesAux]
  refine congrArg _ (pyBatchesAux_congr hB xs.length ((x :: xs).drop B).length _ ?_ le_rfl)
  simp only [List.length_drop, List.length_cons]
  omega

theorem pyBatches_flatten_aux {B : ℕ} (hB : 0 < B) :
    ∀ (n : ℕ) (l : List α), l.length ≤ n → (pyBatches l B).flatten = l
  | _, [], _ => rfl
  | 0, x :: xs, hn => by simp at hn
  | n + 1, x :: xs, hn => by
    rw [pyBatches_cons hB]
    simp only [List.flatten_cons]
    rw [pyBatches_flatten_aux hB n ((x :: xs).drop B) ?_]
    · exact List.take_append_drop B (x :: xs)
    · simp only [List.length_drop, List.length_cons]
      simp only [List.length_cons] at hn
      omega

theorem pyBatches_flatten {B : ℕ} (hB : 0 < B) (l : List α) :
    (pyBatches l B).flatten = l :=
  pyBatches_flatten_aux hB l.length l le_rfl

theorem pyBatches_ne_nil {B : ℕ} (hB : 0 < B) (l : List α) (h : l ≠ []) :
    pyBatches l B ≠ [] := by
  cases l with
  | nil => exact absurd rfl h
  | cons x xs => rw [pyBatches_cons hB]; simp

theorem pyBatches_length_aux {B : ℕ} (hB : 0 < B) :
    ∀ (n : ℕ) (l : List α), l.length ≤ n →
      (pyBatches l B).length = (l.length + B - 1) / B
  | _, [], _ => by
    simp only [pyBatches, List.length_nil, pyBatchesAux]
    have h0 : (0 + B - 1) / B = 0 := Nat.div_eq_of_lt (by omega)
    omega
  | 0, x :: xs, hn => by simp at hn
  | n + 1, x :: xs, hn => by
    rw [pyBatches_cons hB]
    simp only [List.length_cons]
    rw [pyBatches_length_aux hB n ((x :: xs).drop B) ?_]
    · simp only [List.length_drop, List.length_cons]
      rcases Nat.lt_or_ge (xs.length + 1) B with hlt | hge
      · have h1 : xs.length + 1 - B = 0 := by omega
        have h2 : (0 + B - 1) / B = 0 := Nat.div_eq_of_lt (by omega)
        have h3 : xs.length + 1 + B - 1 = xs.length + B := by omega
        rw [h1, h2, h3, Nat.add_div_right _ hB,
          Nat.div_eq_of_lt (show xs.length < B by omega)]
      · have h1 : xs.length + 1 - B + B - 1 = xs.length := by omega
        have h3 : xs.length + 1 + B - 1 = xs.length + B := by omega
        rw [h1, h3, Nat.add_div_right _ hB]
    · simp only [List.length_drop, List.length_cons]
      simp only [List.length_cons] at hn
      omega

theorem pyBatches_length {B : ℕ} (hB : 0 < B) (l : List α) :
    (pyBatches l B).length = (l.length + B - 1) / B :=
  pyBatches_length_aux hB l.length l le_rfl

theorem getLast?_cons_of_ne_nil (a : α) {l : List α} (h : l ≠ []) :
    (a :: l).getLast? = l.getLast? := by
  cases l with
  | nil => exact absurd rfl h
  | cons b l' => exact List.getLast?_cons_cons

theorem pyBatches_dropLast_aux {B : ℕ} (hB : 0 < B) :
    ∀ (n : ℕ) (l : List α), l.length ≤ n →
      ∀ b ∈ (pyBatches l B).dropLast, b.length = B
  | _, [], _ => by simp [pyBatches, pyBatchesAux]
  | 0, x :: xs, hn => by simp at hn
  | n + 1, x :: xs, hn => by
    rw [pyBatches_cons hB]
    by_cases hd : (x :: xs).drop B = []
    · simp [hd, pyBatches, pyBatchesAux]
    · have hne := pyBatches_ne_nil hB _ hd
      cases hrest : pyBatches ((x :: xs).drop B) B with
      | nil => exact absurd hrest hne
      | cons r rs =>
        intro b hb
        rw [List.dropLast_cons₂] at hb
        rcases List.mem_cons.mp hb with hb | hb
        · subst hb
          have hlen : B < (x :: xs).length := by
            by_contra hcon
            exact hd (List.drop_eq_nil_of_le (by omega))
          rw [List.length_take]
          exact Nat.min_eq_left (le_of_lt hlen)
        · have := pyBatches_dropLast_aux hB n ((x :: xs).drop B) ?_
          · rw [hrest] at this
            exact this b hb
          · simp only [List.length_drop, List.length_cons]
            simp only [List.length_cons] at hn
            omega

theorem pyBatches_dropLast {B : ℕ} (hB : 0 < B) (l : List α) :
    ∀ b ∈ (pyBatches l B).dropLast, b.length = B :=
  pyBatches_dropLast_aux hB l.length l le_rfl

theorem pyBatches_getLast_aux {B : ℕ} (hB : 0 < B) :
    ∀ (n : ℕ) (l : List α), l.length ≤ n → l ≠ [] →
      (pyBatches l B).getLast?.map List.length =
        some (if l.length % B = 0 then B else l.length % B)
  | _, [], _, h => absurd rfl h
  | 0, x :: xs, hn, _ => by simp at hn
  | n + 1, x :: xs, hn, _ => by
    rw [pyBatches_cons hB]
    by_cases hd : (x :: xs).drop B = []
    · have hlen : (x :: xs).length ≤ B := by
        by_contra hcon
        have : (x :: xs).drop B ≠ [] := by
          simp only [ne_eq, List.drop_eq_nil_iff]
          omega
        exact this hd
      have htake : (x :: xs).take B = x :: xs := List.take_of_length_le hlen
      rw [hd, htake]
      simp only [pyBatches, List.length_nil, pyBatchesAux, List.getLast?_singleton,
        Option.map_some]
      rcases Nat.lt_or_ge (x :: xs).length B with hlt | hge
      · have h2 : (xs.length + 1) % B = xs.length + 1 :=
          Nat.mod_eq_of_lt (by simpa using hlt)
        simp [h2]
      · have heq : (x :: xs).length = B := by omega
        simp [heq, Nat.mod_self]
    · have hne := pyBatches_ne_nil hB _ hd
      rw [getLast?_cons_of_ne_nil _ hne]
      have hBlt : B < (x :: xs).length := by
        by_contra hcon
        exact hd (List.drop_eq_nil_of_le (by omega))
      have hrec := pyBatches_getLast_aux hB n ((x :: xs).drop B) ?_ hd
      · rw [hrec]
        have hmod : ((x :: xs).drop B).length % B = (x :: xs).length % B := by
          simp only [List.length_drop]
          have : (x :: xs).length = ((x :: xs).length - B) + B := by omega
          conv_rhs => rw [this]
          rw [Nat.add_mod_right]
        rw [hmod]
      · simp only [List.length_drop, List.length_cons]
        simp only [List.length_cons] at hn
        omega

theorem pyBatches_getLast {B : ℕ} (hB : 0 < B) (l : List α) (h : l ≠ []) :
    (pyBatches l B).getLast?.map List.length =
      some (if l.length % B = 0 then B else l.length % B) :=
  pyBatches_getLast_aux hB l.length l le_rfl h

/-! Helper lemmas about the vector store model. -/

theorem lookupColl_cons_pos (a : String) (pd : List VDoc) (s : VStore) :
    lookupColl ((a, pd) :: s) a = some pd := by
  unfold lookupColl
  rw [List.find?_cons_of_pos _ (by simp)]
  rfl

theorem lookupColl_cons_neg (a : String) (pd : List VDoc) (s : VStore)
    (n : String) (h : a ≠ n) :
    lookupColl ((a, pd) :: s) n = lookupColl s n := by
  unfold lookupColl
  rw [List.find?_cons_of_neg _ (by simp [h])]

theorem deleteColl_cons_pos (a : String) (pd : List VDoc) (s : VStore)
    (h : a = n) : deleteColl ((a, pd) :: s) n = deleteColl s n := by
  simp [deleteColl, List.filter_cons, h]

theorem deleteColl_cons_neg (a : String) (pd : List VDoc) (s : VStore)
    (h : a ≠ n) : deleteColl ((a, pd) :: s) n = (a, pd) :: deleteColl s n := by
  simp [deleteColl, List.filter_cons, h]

theorem addToColl_cons_pos (a : String) (pd : List VDoc) (s : VStore)
    (ds : List VDoc) (h : a = n) :
    addToColl ((a, pd) :: s) n ds = (a, pd ++ ds) :: addToColl s n ds := by
  subst h
  simp [addToColl]

theorem addToColl_cons_neg (a : String) (pd : List VDoc) (s : VStore)
    (ds : List VDoc) (h : a ≠ n) :
    addToColl ((a, pd) :: s) n ds = (a, pd) :: addToColl s n ds := by
  simp [addToColl, h]

theorem lookupColl_deleteColl (s : VStore) (n : String) :
    lookupColl (deleteColl s n) n = none := by
  induction s with
  | nil => rfl
  | cons p s' ih =>
    obtain ⟨a, pd⟩ := p
    by_cases hp : a = n
    · rw [deleteColl_cons_pos a pd s' hp]
      exact ih
    · rw [deleteColl_cons_neg a pd s' hp, lookupColl_cons_neg a pd _ n hp]
      exact ih

theorem lookupColl_createColl_of_none (s : VStore) (n : String)
    (h : lookupColl s n = none) : lookupColl (createColl s n) n = some [] := by
  induction s with
  | nil => simpa [createColl] using lookupColl_cons_pos n [] []
  | cons p s' ih =>
    obtain ⟨a, pd⟩ := p
    by_cases hp : a = n
    · subst hp
      rw [lookupColl_cons_pos a pd s'] at h
      exact absurd h (by simp)
    · rw [lookupColl_cons_neg a pd s' n hp] at h
      simp only [createColl, List.cons_append]
      rw [lookupColl_cons_neg a pd _ n hp]
      simpa [createColl] using ih h

theorem lookupColl_addToColl (s : VStore) (n : String) (ds : List VDoc) :
    ∀ d, lookupColl s n = some d →
      lookupColl (addToColl s n ds) n = some (d ++ ds) := by
  induction s with
  | nil => intro d h; simp [lookupColl] at h
  | cons p s' ih =>
    intro d h
    obtain ⟨a, pd⟩ := p
    by_cases hp : a = n
    · subst hp
      rw [lookupColl_cons_pos a pd s'] at h
      rw [addToColl_cons_pos a pd s' ds rfl, lookupColl_cons_pos a (pd ++ ds) _]
      simp only [Option.some.injEq] at h
      rw [h]
    · rw [lookupColl_cons_neg a pd s' n hp] at h
      rw [addToColl_cons_neg a pd s' ds hp, lookupColl_cons_neg a pd _ n hp]
      exact ih d h

theorem lookupColl_foldl_add (n : String) :
    ∀ (bs : List (List VDoc)) (s : VStore) (d : List VDoc),
      lookupColl s n = some d →
      lookupColl (bs.foldl (fun s b => addToColl s n b) s) n = some (d ++ bs.flatten)
  | [], s, d, h => by simpa using h
  | b :: bs', s, d, h => by
    have h1 := lookupColl_addToColl s n b d h
    have h2 := lookupColl_foldl_add n bs' (addToColl s n b) (d ++ b) h1
    simpa [List.append_assoc] using h2

theorem mkVDocs_length (ids : ℕ → String) (chunks : List Chunk) :
    (mkVDocs ids chunks).length = chunks.length := by
  simp [mkVDocs]

theorem ingestChunks_spec (ids : ℕ → String) (chunks : List Chunk)
    (n : String) (store : VStore) (h : lookupColl store n = none) :
    lookupColl (ingestChunks ids chunks n store).1 n = some (mkVDocs ids chunks) ∧
      (ingestChunks ids chunks n store).2 =
        VOp.create n :: (pyBatches (mkVDocs ids chunks) 500).map (fun b => VOp.add b.length) := by
  constructor
  · have h1 := lookupColl_createColl_of_none store n h
    have h2 := lookupColl_foldl_add n (pyBatches (mkVDocs ids chunks) 500)
      (createColl store n) [] h1
    simpa [ingestChunks, pyBatches_flatten (by norm_num : (0:ℕ) < 500)] using h2
  · rfl

/-! Helper lemmas for the batch processor, serialization, and formatting. -/

theorem length_filterMap_id (l : List (Option α)) :
    (l.filterMap id).length = l.countP Option.isSome := by
  induction l with
  | nil => rfl
  | cons r l' ih =>
    cases r with
    | none => simp [List.filterMap_cons, List.countP_cons, ih]
    | some v => simp [List.filterMap_cons, List.countP_cons, ih]

theorem filterMap_id_map (f : α → Option β) (l : List α) :
    (l.map f).filterMap id = l.filterMap f := by
  induction l with
  | nil => rfl
  | cons x l' ih =>
    cases hx : f x with
    | none => simp [List.filterMap_cons, hx, ih]
    | some v => simp [List.filterMap_cons, hx, ih]

theorem pickle_roundtrip (chunks : List Chunk) :
    pickleLoad (pickleDump chunks) = some chunks := by
  induction chunks with
  | nil => rfl
  | cons c cs ih =>
    simp only [pickleDump, List.map_cons, List.flatten_cons, encodeChunk,
      List.cons_append, List.nil_append]
    simp only [pickleLoad]
    simp only [pickleDump] at ih
    rw [ih]
    rfl

theorem foldl_extend_chunks :
    ∀ (results : List (Option VideoResult)) (acc : List Chunk),
      results.foldl
        (fun all r => match r with
          | some v => all ++ v.chunks
          | none => all) acc =
      acc ++ (results.map fun r => (r.map VideoResult.chunks).getD []).flatten
  | [], acc => by simp
  | r :: rs, acc => by
    cases r with
    | none => simpa using foldl_extend_chunks rs acc
    | some v =>
      simpa [List.append_assoc] using foldl_extend_chunks rs (acc ++ v.chunks)

theorem pyInt_intCast (n : ℤ) : pyInt (n : ℚ) = n := by
  unfold pyInt
  split <;> simp

theorem pyMod_nonneg (a b : ℚ) (hb : 0 < b) : 0 ≤ pyMod a b := by
  unfold pyMod
  have h1 : (⌊a / b⌋ : ℚ) ≤ a / b := Int.floor_le _
  have h2 : b * (⌊a / b⌋ : ℚ) ≤ b * (a / b) :=
    mul_le_mul_of_nonneg_left h1 (le_of_lt hb)
  rw [mul_div_cancel₀ a (ne_of_gt hb)] at h2
  linarith

theorem pyInt_eq_floor_of_nonneg (q : ℚ) (h : 0 ≤ q) : pyInt q = ⌊q⌋ := by
  unfold pyInt
  rw [if_neg (not_lt.mpr h)]

/-! The claims. -/

/-- C1: the spec scenario for the chunker: entries [(text "a b c", start 0,
duration 5), (text "d e f", start 5, duration 5)] with target_word_count 4
and overlap_count 1.  The claim expects the first emitted chunk to span from
the first accumulated entry start (0) to the current entry start plus
duration (10).  The code instead emits start_time 5: the truthiness test on
line 82 of src/parse.py (if not chunk_start) treats the stored 0.0 as unset
and overwrites chunk_start with the start of the current entry.  This
theorem evaluates the embedded code at the failing input and records that
the first chunk does not start at 0. -/
theorem C1_chunk_start_falsy_bug :
    chunkTranscript [⟨"a b c", 0, 5⟩, ⟨"d e f", 5, 5⟩] 4 1 "t" "u" "v" =
      [⟨"a b c d e f", 5, 10, "t", "u", "v"⟩, ⟨"d e f", 5, 10, "t", "u", "v"⟩] ∧
    (chunkTranscript [⟨"a b c", 0, 5⟩, ⟨"d e f", 5, 5⟩] 4 1 "t" "u" "v").head?.map
        Chunk.start_time ≠ some 0 := by
  have h : chunkTranscript [⟨"a b c", 0, 5⟩, ⟨"d e f", 5, 5⟩] 4 1 "t" "u" "v" =
      [⟨"a b c d e f", 5, 5 + 5, "t", "u", "v"⟩, ⟨"d e f", 5, 5 + 5, "t", "u", "v"⟩] := rfl
  constructor
  · rw [h]
    norm_num
  · rw [h]
    decide

/-- C2 counterexample: with overlap_count 0, the accumulator reseeded after
a mid stream emission is the entire just closed window, not the empty seed
the claim states: Python current_chunk[-0:] is the whole list.  The first
conjunct shows a chunk was emitted while consuming the second entry; the
remaining conjuncts exhibit the seed and its disagreement with the last
zero entries of the window. -/
theorem C2_counterexample :
    (step 2 0 "t" "u" "v" (step 2 0 "t" "u" "v" ⟨[], [], "", none⟩ ⟨"w1", 1, 1⟩)
        ⟨"w2", 2, 1⟩).chunks.length = 1 ∧
    (step 2 0 "t" "u" "v" (step 2 0 "t" "u" "v" ⟨[], [], "", none⟩ ⟨"w1", 1, 1⟩)
        ⟨"w2", 2, 1⟩).current_chunk = [⟨"w1", 1, 1⟩, ⟨"w2", 2, 1⟩] ∧
    specLastN ([⟨"w1", 1, 1⟩, ⟨"w2", 2, 1⟩] : List CaptionEntry) 0 = [] ∧
    (step 2 0 "t" "u" "v" (step 2 0 "t" "u" "v" ⟨[], [], "", none⟩ ⟨"w1", 1, 1⟩)
        ⟨"w2", 2, 1⟩).current_chunk ≠
      specLastN ([⟨"w1", 1, 1⟩, ⟨"w2", 2, 1⟩] : List CaptionEntry) 0 := by
  decide

/-- C2 amended: whenever a chunk is emitted mid stream, the next accumulator
is exactly the Python slice current_chunk[-overlap_count:] of the just
closed window: for overlap_count ≥ 1 this is the last overlap_count entries
(the whole window when overlap_count ≥ its length), while for
overlap_count = 0 it is the whole window rather than an empty seed; its
text is the space join of the retained entries and its start time is the
start of the earliest retained entry. -/
theorem C2_overlap_seed (chunk_size overlap : ℕ) (vt vu vi : String)
    (st : ChunkState) (e : CaptionEntry)
    (hemit : chunk_size ≤ (pySplit (st.current_text ++ " " ++ e.text)).length) :
    (step chunk_size overlap vt vu vi st e).current_chunk =
      pyLastSlice (st.current_chunk ++ [e]) overlap ∧
    (step chunk_size overlap vt vu vi st e).current_text =
      String.intercalate " "
        ((pyLastSlice (st.current_chunk ++ [e]) overlap).map (fun x => x.text)) ∧
    (step chunk_size overlap vt vu vi st e).chunk_start =
      some (((pyLastSlice (st.current_chunk ++ [e]) overlap).headD e).start) ∧
    (1 ≤ overlap →
      pyLastSlice (st.current_chunk ++ [e]) overlap =
        specLastN (st.current_chunk ++ [e]) overlap) ∧
    ((st.current_chunk ++ [e]).length ≤ overlap →
      pyLastSlice (st.current_chunk ++ [e]) overlap = st.current_chunk ++ [e]) ∧
    (overlap = 0 →
      pyLastSlice (st.current_chunk ++ [e]) overlap = st.current_chunk ++ [e]) := by
  refine ⟨?_, ?_, ?_, ?_, ?_, ?_⟩
  · simp only [step, if_pos hemit]
  · simp only [step, if_pos hemit]
  · simp only [step, if_pos hemit]
  · intro h
    unfold pyLastSlice specLastN
    rw [if_neg (by omega)]
  · intro h
    unfold pyLastSlice
    by_cases h0 : overlap = 0
    · rw [if_pos h0]
    · rw [if_neg h0, Nat.sub_eq_zero_of_le h, List.drop_zero]
  · intro h
    simp [pyLastSlice, h]

theorem C2_overlap_seed_witness :
    (step 2 1 "t" "u" "v" (step 2 1 "t" "u" "v" ⟨[], [], "", none⟩ ⟨"w1", 1, 1⟩)
        ⟨"w2", 2, 1⟩).current_chunk =
      pyLastSlice
        ((step 2 1 "t" "u" "v" ⟨[], [], "", none⟩ ⟨"w1", 1, 1⟩).current_chunk ++
          [⟨"w2", 2, 1⟩]) 1 :=
  (C2_overlap_seed 2 1 "t" "u" "v"
    (step 2 1 "t" "u" "v" ⟨[], [], "", none⟩ ⟨"w1", 1, 1⟩) ⟨"w2", 2, 1⟩ (by decide)).1

/-- C3: for every non empty transcript, the chunker drops no text: the
whitespace words of the concatenated entries form a subsequence of the
whitespace words of the concatenated chunk texts (overlap only duplicates
words, never removes them), and the remaining accumulator is always emitted
as one final chunk, so the output is non empty even when the input is below
the target word count. -/
theorem C3_no_text_dropped (entries : List CaptionEntry) (chunk_size overlap : ℕ)
    (vt vu vi : String) (hne : entries ≠ []) :
    List.Sublist (entryWords entries)
      (chunkWords (chunkTranscript entries chunk_size overlap vt vu vi)) ∧
    chunkTranscript entries chunk_size overlap vt vu vi ≠ [] := by
  have hA := foldl_words chunk_size overlap vt vu vi entries ⟨[], [], "", none⟩ []
    (by
      have : entryWords [] = [] := rfl
      rw [this]
      exact List.nil_sublist _)
  rw [List.nil_append] at hA
  have hcur := foldl_current_chunk_ne chunk_size overlap vt vu vi entries
    ⟨[], [], "", none⟩ (Or.inr hne)
  unfold chunkTranscript
  set st := entries.foldl (step chunk_size overlap vt vu vi) ⟨[], [], "", none⟩ with hst
  rw [if_neg hcur]
  constructor
  · rw [chunkWords_snoc]
    have htext : (⟨pyStrip st.current_text, st.chunk_start.getD 0,
        (st.current_chunk.getLastD ⟨"", 0, 0⟩).start +
          (st.current_chunk.getLastD ⟨"", 0, 0⟩).duration,
        vt, vu, vi⟩ : Chunk).text = pyStrip st.current_text := rfl
    rw [htext, pySplit_pyStrip]
    exact hA
  · simp

theorem C3_no_text_dropped_witness :
    List.Sublist (entryWords [⟨"a b", 0, 1⟩])
      (chunkWords (chunkTranscript [⟨"a b", 0, 1⟩] 5 1 "t" "u" "v")) ∧
    chunkTranscript [⟨"a b", 0, 1⟩] 5 1 "t" "u" "v" ≠ [] :=
  C3_no_text_dropped [⟨"a b", 0, 1⟩] 5 1 "t" "u" "v" (by decide)

/-- C4: for transcripts ordered by start time with non negative durations,
every chunk emitted by the chunker — the mid stream chunks and the final
remainder chunk alike — satisfies end_time ≥ start_time. -/
theorem C4_end_time_ge_start_time (entries : List CaptionEntry)
    (chunk_size overlap : ℕ) (vt vu vi : String)
    (hsort : List.Pairwise (fun a b => a.start ≤ b.start) entries)
    (hdur : ∀ e ∈ entries, 0 ≤ e.duration) :
    ∀ c ∈ chunkTranscript entries chunk_size overlap vt vu vi,
      c.start_time ≤ c.end_time := by
  cases entries with
  | nil =>
    intro c hc
    simp [chunkTranscript, List.foldl] at hc
  | cons e0 rest =>
    obtain ⟨B2, hInv⟩ := foldl_inv chunk_size overlap vt vu vi (e0 :: rest)
      ⟨[], [], "", none⟩ e0.start
      (by
        refine ⟨?_, ?_, ?_, ?_, ?_⟩ <;> simp [InvC4])
      hsort
      (by
        intro x hx
        rcases List.mem_cons.mp hx with h | h
        · subst h
          exact ⟨le_refl _, hdur x (by simp)⟩
        · exact ⟨(List.pairwise_cons.mp hsort).1 x h, hdur x (by simp [h])⟩)
    intro c hc
    unfold chunkTranscript at hc
    set st := (e0 :: rest).foldl (step chunk_size overlap vt vu vi)
      ⟨[], [], "", none⟩ with hst
    obtain ⟨hcur, hcs, hsome, hlastB, hchunks⟩ := hInv
    by_cases hemp : st.current_chunk = []
    · rw [if_pos hemp] at hc
      exact hchunks c hc
    · rw [if_neg hemp] at hc
      rcases List.mem_append.mp hc with hc | hc
      · exact hchunks c hc
      · simp only [List.mem_singleton] at hc
        subst hc
        obtain ⟨v, hv⟩ := hsome hemp
        have hvB : v ≤ B2 := hcs v hv
        have hB2 : B2 ≤ (st.current_chunk.getLastD ⟨"", 0, 0⟩).start := hlastB hemp
        have hmem := hcur _ (getLastD_mem ⟨"", 0, 0⟩ hemp)
        simp only [hv, Option.getD_some]
        have hdur2 : 0 ≤ (st.current_chunk.getLastD ⟨"", 0, 0⟩).duration := hmem.2
        show v ≤ (st.current_chunk.getLastD ⟨"", 0, 0⟩).start +
          (st.current_chunk.getLastD ⟨"", 0, 0⟩).duration
        linarith

theorem C4_end_time_ge_start_time_witness :
    (⟨"a", 0, 0 + 1, "t", "u", "v"⟩ : Chunk).start_time ≤
      (⟨"a", 0, 0 + 1, "t", "u", "v"⟩ : Chunk).end_time :=
  C4_end_time_ge_start_time [⟨"a", 0, 1⟩, ⟨"b", 1, 1⟩] 1 1 "t" "u" "v"
    (by decide) (by decide) ⟨"a", 0, 0 + 1, "t", "u", "v"⟩
    (by
      rw [show chunkTranscript [⟨"a", 0, 1⟩, ⟨"b", 1, 1⟩] 1 1 "t" "u" "v" =
        [⟨"a", 0, 0 + 1, "t", "u", "v"⟩, ⟨"a b", 1, 1 + 1, "t", "u", "v"⟩,
          ⟨"b", 1, 1 + 1, "t", "u", "v"⟩] from rfl]
      exact List.mem_cons_self _ _)

/-- C5: create_or_load_collection on an existing collection with matching
count returns with no store mutation at all; on a count mismatch it deletes
and fully rebuilds the collection from the chunk list; on NotFound it
creates the collection and ingests everything; consequently a second run
over the result of any first run is a no-op and leaves the stored count at
the chunk count. -/
theorem C5_create_or_load_collection (ids : ℕ → String) (chunks : List Chunk)
    (name : String) (store : VStore) :
    (∀ docs, lookupColl store name = some docs → docs.length = chunks.length →
      create_or_load_collection ids chunks name store = (store, [])) ∧
    (∀ docs, lookupColl store name = some docs → docs.length ≠ chunks.length →
      (create_or_load_collection ids chunks name store).2 =
        VOp.delete name :: VOp.create name ::
          (pyBatches (mkVDocs ids chunks) 500).map (fun b => VOp.add b.length) ∧
      lookupColl (create_or_load_collection ids chunks name store).1 name =
        some (mkVDocs ids chunks) ∧
      (mkVDocs ids chunks).length = chunks.length) ∧
    (lookupColl store name = none →
      (create_or_load_collection ids chunks name store).2 =
        VOp.create name ::
          (pyBatches (mkVDocs ids chunks) 500).map (fun b => VOp.add b.length) ∧
      lookupColl (create_or_load_collection ids chunks name store).1 name =
        some (mkVDocs ids chunks)) ∧
    create_or_load_collection ids chunks name
        (create_or_load_collection ids chunks name store).1 =
      ((create_or_load_collection ids chunks name store).1, []) := by
  have hnoop : ∀ (s : VStore) (docs : List VDoc), lookupColl s name = some docs →
      docs.length = chunks.length →
      create_or_load_collection ids chunks name s = (s, []) := by
    intro s docs h hlen
    unfold create_or_load_collection
    rw [h]
    show (if docs.length = chunks.length then (s, ([] : List VOp))
      else ((ingestChunks ids chunks name (deleteColl s name)).1,
        VOp.delete name :: (ingestChunks ids chunks name (deleteColl s name)).2)) = _
    rw [if_pos hlen]
  have hmismatch : ∀ (s : VStore) (docs : List VDoc), lookupColl s name = some docs →
      docs.length ≠ chunks.length →
      create_or_load_collection ids chunks name s =
        ((ingestChunks ids chunks name (deleteColl s name)).1,
          VOp.delete name :: (ingestChunks ids chunks name (deleteColl s name)).2) := by
    intro s docs h hlen
    unfold create_or_load_collection
    rw [h]
    show (if docs.length = chunks.length then (s, ([] : List VOp))
      else ((ingestChunks ids chunks name (deleteColl s name)).1,
        VOp.delete name :: (ingestChunks ids chunks name (deleteColl s name)).2)) = _
    rw [if_neg hlen]
  have hcreate : ∀ (s : VStore), lookupColl s name = none →
      create_or_load_collection ids chunks name s = ingestChunks ids chunks name s := by
    intro s h
    unfold create_or_load_collection
    rw [h]
  refine ⟨fun docs h hlen => hnoop store docs h hlen, ?_, ?_, ?_⟩
  · intro docs h hlen
    have hdel := lookupColl_deleteColl store name
    have hspec := ingestChunks_spec ids chunks name (deleteColl store name) hdel
    rw [hmismatch store docs h hlen]
    exact ⟨by rw [hspec.2], hspec.1, mkVDocs_length ids chunks⟩
  · intro h
    have hspec := ingestChunks_spec ids chunks name store h
    rw [hcreate store h]
    exact ⟨hspec.2, hspec.1⟩
  · cases hl : lookupColl store name with
    | none =>
      have hspec := ingestChunks_spec ids chunks name store hl
      exact hnoop _ _ (by rw [hcreate store hl]; exact hspec.1)
        (mkVDocs_length ids chunks)
    | some docs =>
      by_cases hlen : docs.length = chunks.length
      · have ha := hnoop store docs hl hlen
        rw [ha]
        exact hnoop store docs hl hlen
      · have hdel := lookupColl_deleteColl store name
        have hspec := ingestChunks_spec ids chunks name (deleteColl store name) hdel
        exact hnoop _ _ (by rw [hmismatch store docs hl hlen]; exact hspec.1)
          (mkVDocs_length ids chunks)

theorem C5_create_or_load_collection_witness :
    (create_or_load_collection (fun _ => "id") [⟨"x", 0, 1, "t", "u", "v"⟩]
        "video_transcripts" []).2 =
      VOp.create "video_transcripts" ::
        (pyBatches (mkVDocs (fun _ => "id") [⟨"x", 0, 1, "t", "u", "v"⟩]) 500).map
          (fun b => VOp.add b.length) ∧
    lookupColl (create_or_load_collection (fun _ => "id") [⟨"x", 0, 1, "t", "u", "v"⟩]
        "video_transcripts" []).1 "video_transcripts" =
      some (mkVDocs (fun _ => "id") [⟨"x", 0, 1, "t", "u", "v"⟩]) :=
  (C5_create_or_load_collection (fun _ => "id") [⟨"x", 0, 1, "t", "u", "v"⟩]
    "video_transcripts" []).2.2.1 rfl

/-- C6: the batching loop over a list of length N with batch size B issues
exactly ceil(N over B) = (N + B - 1) / B add calls, submitted in order (their
concatenation is the original list), each of size B except possibly the
last, whose size is N mod B unless that is zero, in which case it is B; for
the empty list no call is issued.  The create path of
create_or_load_collection uses B = 500 and build_database uses B = 1000. -/
theorem C6_batch_partition (l : List VDoc) (B : ℕ) (hB : 0 < B) :
    (pyBatches l B).length = (l.length + B - 1) / B ∧
    (pyBatches l B).flatten = l ∧
    (∀ b ∈ (pyBatches l B).dropLast, b.length = B) ∧
    (l ≠ [] → (pyBatches l B).getLast?.map List.length =
      some (if l.length % B = 0 then B else l.length % B)) ∧
    (l = [] → pyBatches l B = []) ∧
    (∀ (ids : ℕ → String) (chunks : List Chunk) (name : String) (store : VStore),
      lookupColl store name = none →
      (create_or_load_collection ids chunks name store).2 =
        VOp.create name ::
          (pyBatches (mkVDocs ids chunks) 500).map (fun b => VOp.add b.length)) ∧
    (∀ (ids : ℕ → String) (chunks : List Chunk),
      (build_database ids chunks).2 =
        VOp.create "video_transcripts" ::
          (pyBatches (mkVDocs ids chunks) 1000).map (fun b => VOp.add b.length)) := by
  refine ⟨pyBatches_length hB l, pyBatches_flatten hB l, pyBatches_dropLast hB l,
    pyBatches_getLast hB l, ?_, ?_, ?_⟩
  · intro h
    subst h
    rfl
  · intro ids chunks name store h
    have hgoal : create_or_load_collection ids chunks name store =
        ingestChunks ids chunks name store := by
      unfold create_or_load_collection
      rw [h]
    rw [hgoal]
    rfl
  · intro ids chunks
    rfl

theorem C6_batch_partition_witness :
    (pyBatches [(⟨"d", "t", "u", "v", 0, 1, "ts", "id"⟩ : VDoc)] 500).flatten =
      [(⟨"d", "t", "u", "v", 0, 1, "ts", "id"⟩ : VDoc)] :=
  (C6_batch_partition [⟨"d", "t", "u", "v", 0, 1, "ts", "id"⟩] 500 (by norm_num)).2.1

/-- C7: every per video task is failure isolated: a raise during the
metadata fetch or the transcript fetch resolves that task to None instead
of propagating (the chunking itself is total), and process_videos returns
exactly the successful results — its output is the None filtered gather
list, and its length is the number of URLs whose processing succeeds.  No
exception escapes: the model of process_videos is a total function. -/
theorem C7_failure_isolation
    (fetchInfo : String → Except String VideoMetadata)
    (fetchTranscript : String → Except String (List CaptionEntry))
    (urls : List String) :
    (∀ url, ((fetchInfo url).toOption = none ∨
        (∃ md, fetchInfo url = .ok md ∧ (fetchTranscript md.video_id).toOption = none)) →
      process_single_video fetchInfo fetchTranscript url = none) ∧
    process_videos fetchInfo fetchTranscript urls =
      (urls.map (process_single_video fetchInfo fetchTranscript)).filterMap id ∧
    (process_videos fetchInfo fetchTranscript urls).length =
      urls.countP (fun u => (process_single_video fetchInfo fetchTranscript u).isSome) := by
  refine ⟨?_, rfl, ?_⟩
  · intro url h
    rcases h with h | ⟨md, hmd, htr⟩
    · unfold process_single_video get_video_metadata
      rw [h]
    · unfold process_single_video get_video_metadata
      rw [hmd]
      cases htrc : fetchTranscript md.video_id with
      | error e => simp [Except.toOption, htrc]
      | ok tr =>
        rw [htrc] at htr
        simp [Except.toOption] at htr
  · show ((urls.map (process_single_video fetchInfo fetchTranscript)).filterMap id).length = _
    rw [length_filterMap_id]
    rw [List.countP_map]
    rfl

theorem C7_failure_isolation_witness :
    process_single_video demoMeta demoTranscript "u2" = none ∧
    (process_videos demoMeta demoTranscript ["u1", "u2", "u3"]).length = 2 := by
  constructor
  · exact (C7_failure_isolation demoMeta demoTranscript ["u1", "u2", "u3"]).1 "u2"
      (Or.inr ⟨⟨"T", "u2", "id-u2", 0, "d"⟩, rfl, rfl⟩)
  · rw [(C7_failure_isolation demoMeta demoTranscript ["u1", "u2", "u3"]).2.2]
    decide

/-- C8: serializing the flattened chunk set and deserializing it reproduces
exactly the in order concatenation of the chunk lists of the non None video
results, field for field. -/
theorem C8_pickle_roundtrip (results : List (Option VideoResult)) :
    load_processed_videos (save_processed_videos results) =
      some ((results.map fun r => (r.map VideoResult.chunks).getD []).flatten) := by
  unfold load_processed_videos save_processed_videos
  rw [foldl_extend_chunks results []]
  rw [List.nil_append]
  exact pickle_roundtrip _

/-- C9: for non negative second counts, format_timestamp renders zero padded
HH:MM:SS with hours the floor of q / 3600, minutes the floor of
(q mod 3600) / 60 and seconds the floor of q mod 60, truncating fractional
seconds; in particular 3725.9 seconds renders as 01:02:05 (not 01:02:06)
and 0 renders as 00:00:00. -/
theorem C9_format_timestamp (q : ℚ) (_hq : 0 ≤ q) :
    format_timestamp q =
      pad2 ⌊q / 3600⌋ ++ ":" ++ pad2 ⌊pyMod q 3600 / 60⌋ ++ ":" ++ pad2 ⌊pyMod q 60⌋ ∧
    format_timestamp (37259 / 10 : ℚ) = "01:02:05" ∧
    format_timestamp 0 = "00:00:00" := by
  refine ⟨?_, ?_, ?_⟩
  · unfold format_timestamp pyFloorDiv
    rw [pyInt_intCast, pyInt_intCast,
      pyInt_eq_floor_of_nonneg _ (pyMod_nonneg q 60 (by norm_num))]
  · have h1 : pyInt (pyFloorDiv (37259 / 10 : ℚ) 3600) = 1 := by
      unfold pyFloorDiv
      rw [pyInt_intCast]
      norm_num
    have h2 : pyMod (37259 / 10 : ℚ) 3600 = 1259 / 10 := by
      unfold pyMod
      norm_num
    have h3 : pyInt (pyFloorDiv (1259 / 10 : ℚ) 60) = 2 := by
      unfold pyFloorDiv
      rw [pyInt_intCast]
      norm_num
    have h4 : pyMod (37259 / 10 : ℚ) 60 = 59 / 10 := by
      unfold pyMod
      norm_num
    have h5 : pyInt (59 / 10 : ℚ) = 5 := by
      unfold pyInt
      rw [if_neg (by norm_num)]
      norm_num
    unfold format_timestamp
    rw [h1, h2, h3, h4, h5]
    decide
  · have h1 : pyInt (pyFloorDiv (0 : ℚ) 3600) = 0 := by
      unfold pyFloorDiv
      rw [pyInt_intCast]
      norm_num
    have h2 : pyMod (0 : ℚ) 3600 = 0 := by
      unfold pyMod
      norm_num
    have h3 : pyInt (pyFloorDiv (0 : ℚ) 60) = 0 := by
      unfold pyFloorDiv
      rw [pyInt_intCast]
      norm_num
    have h4 : pyMod (0 : ℚ) 60 = 0 := by
      unfold pyMod
      norm_num
    have h5 : pyInt (0 : ℚ) = 0 := by
      unfold pyInt
      norm_num
    unfold format_timestamp
    rw [h2, h1, h4, h3, h5]
    decide

theorem C9_format_timestamp_witness :
    format_timestamp 1 =
      pad2 ⌊(1 : ℚ) / 3600⌋ ++ ":" ++ pad2 ⌊pyMod 1 3600 / 60⌋ ++ ":" ++
        pad2 ⌊pyMod 1 60⌋ :=
  (C9_format_timestamp 1 (by norm_num)).1

/-- C10: process_videos preserves input order: its output is the order
preserving filter of the per URL outcomes — asyncio.gather returns the task
results positionally in submission order and the list comprehension keeps
that order while dropping the None entries, so the result equals filterMap
over the URL list. -/
theorem C10_order_preserved
    (fetchInfo : String → Except String VideoMetadata)
    (fetchTranscript : String → Except String (List CaptionEntry))
    (urls : List String) :
    process_videos fetchInfo fetchTranscript urls =
      urls.filterMap (process_single_video fetchInfo fetchTranscript) := by
  unfold process_videos
  exact filterMap_id_map _ urls

end MeleeLLM
